import Mathlib

/-!
Verification of the walk-forward backtesting core of the EPF framework
(`app/modeling/splitter.py`, `app/modeling/backtesting.py`).

Series are modelled as lists; window train/test ranges are lists of
0-based positional indices.  Machine reals appearing in the code
(`frac`, random draws, metric values) are modelled as rationals.
-/

namespace EPF

/-! Expanding-window generation

`ExpandingWindowSplitter` in `splitter.py` subclasses sktime's splitter and
only adds progress logging, which does not alter sequencing.  The window
generation itself lives in sktime, outside this repository's sources.
-/

/-- Modelled from the spec: the window-emission loop of the expanding
splitter (sktime's `ExpandingWindowSplitter._split_windows`, not part of this
repository's sources).  Starting from candidate train end `t`, a window with
train end `t` is emitted while `t + H ≤ N` (the test range must fit inside
the series); the train end then advances by the step length `S`.  No
truncated final window is emitted.  `fuel` bounds the recursion; it is set
large enough in `windowStarts` to never bind. -/
def windowStartsAux (N S H : ℕ) : ℕ → ℕ → List ℕ
  | 0, _ => []
  | fuel + 1, t =>
      if 0 < S ∧ t + H ≤ N then t :: windowStartsAux N S H fuel (t + S) else []

/-- Modelled from the spec: the list of train-range end positions emitted by
an expanding splitter over a series of length `N`, with step length `S`,
horizon length `H`, starting from initial train end `t`. -/
def windowStarts (N S H t : ℕ) : List ℕ :=
  windowStartsAux N S H (N + 1) t

/-- Closed-form count of windows emitted from candidate train end `t`. -/
def wCount (N S H t : ℕ) : ℕ :=
  if 0 < S ∧ t + H ≤ N then (N - H - t) / S + 1 else 0

/-- Modelled from the spec: the ordered window sequence of the expanding
splitter.  Window with train end `t` has train range `[0, t)` and test range
`[t, t + H)` (the next `H` indices). -/
def expandingWindows (N I S H : ℕ) : List (List ℕ × List ℕ) :=
  (windowStarts N S H I).map (fun t => (List.range t, (List.range H).map (fun j => t + j)))

theorem windowStartsAux_eq (N S H : ℕ) :
    ∀ fuel t, N + 1 ≤ fuel + t →
      windowStartsAux N S H fuel t = (List.range (wCount N S H t)).map (fun i => t + i * S) := by
  intro fuel
  induction fuel with
  | zero =>
      intro t ht
      have hnot : ¬ (0 < S ∧ t + H ≤ N) := by omega
      simp [windowStartsAux, wCount, hnot]
  | succ fuel ih =>
      intro t ht
      by_cases hc : 0 < S ∧ t + H ≤ N
      · obtain ⟨hS, hN⟩ := hc
        have hrec := ih (t + S) (by omega)
        rw [windowStartsAux, if_pos ⟨hS, hN⟩, hrec]
        have h1 : 0 < S ∧ t + H ≤ N := ⟨hS, hN⟩
        have hcc : wCount N S H t = wCount N S H (t + S) + 1 := by
          by_cases hc2 : t + S + H ≤ N
          · have h2 : 0 < S ∧ t + S + H ≤ N := ⟨hS, hc2⟩
            have hSle : S ≤ N - H - t := by omega
            have hsub : N - H - (t + S) = (N - H - t) - S := by omega
            have hdiv : (N - H - t) / S = ((N - H - t) - S) / S + 1 :=
              Nat.div_eq_sub_div hS hSle
            simp only [wCount]
            rw [if_pos h1, if_pos h2, hsub, hdiv]
          · have hlt : N - H - t < S := by omega
            have hn2 : ¬ (0 < S ∧ t + S + H ≤ N) := fun hcon => hc2 hcon.2
            simp only [wCount]
            rw [if_pos h1, if_neg hn2, Nat.div_eq_of_lt hlt]
        rw [hcc, List.range_succ_eq_map, List.map_cons, List.map_map]
        have h0 : t + 0 * S = t := by ring
        rw [h0]
        congr 1
        apply List.map_congr_left
        intro i _
        simp only [Function.comp_apply, Nat.succ_eq_add_one]
        ring
      · rw [windowStartsAux, if_neg hc]
        simp [wCount, hc]

theorem windowStarts_eq (N S H t : ℕ) :
    windowStarts N S H t = (List.range (wCount N S H t)).map (fun i => t + i * S) :=
  windowStartsAux_eq N S H (N + 1) t (by omega)

theorem expandingWindows_length (N I S H : ℕ) :
    (expandingWindows N I S H).length = wCount N S H I := by
  simp [expandingWindows, windowStarts_eq]

/-- C4: for a series of length `N` and an expanding splitter with initial
window length `I > 0`, step length `S > 0` and horizon length `H > 0`, the
number of emitted windows equals `max 0 (⌊(N - I - H) / S⌋ + 1)` (integer
division on `ℤ` rounds toward `-∞` for a positive divisor). -/
theorem expandingWindows_count (N I S H : ℕ) (hI : 0 < I) (hS : 0 < S) (hH : 0 < H) :
    ((expandingWindows N I S H).length : ℤ) = max 0 (((N : ℤ) - I - H) / S + 1) := by
  rw [expandingWindows_length]
  by_cases hc : I + H ≤ N
  · have hcnt : wCount N S H I = (N - H - I) / S + 1 := by
      simp [wCount, hS, hc]
    rw [hcnt]
    have hnum : ((N : ℤ) - I - H) = ((N - H - I : ℕ) : ℤ) := by omega
    have hdivnn : (0 : ℤ) ≤ ((N : ℤ) - I - H) / S := by
      apply Int.ediv_nonneg
      · omega
      · exact_mod_cast Nat.le_of_lt hS
    rw [max_eq_right (by omega), hnum]
    push_cast [Int.natCast_div]
    ring
  · have hcnt : wCount N S H I = 0 := by
      have hn : ¬ (0 < S ∧ I + H ≤ N) := fun hcon => hc hcon.2
      simp [wCount, hn]
    rw [hcnt]
    have hneg : ((N : ℤ) - I - H) < 0 := by
      push_cast
      omega
    have hq : ((N : ℤ) - I - H) / S < 0 :=
      Int.ediv_neg' hneg (by exact_mod_cast hS)
    rw [max_eq_left (by omega)]
    simp

/-- C4 witness: the concrete 9-point series with `I = S = H = 3` — the
formula yields exactly 2 windows. -/
theorem expandingWindows_count_witness :
    ((expandingWindows 9 3 3 3).length : ℤ) = max 0 (((9 : ℤ) - 3 - 3) / 3 + 1) :=
  expandingWindows_count 9 3 3 3 (by decide) (by decide) (by decide)

/-- C5: every emitted window `i` (0-indexed) of the expanding splitter has
train range `[0, I + i·S)` and test range exactly the `H` indices
immediately following the train range's end — length exactly `H`, no gap,
no overlap. -/
theorem expandingWindows_window (N I S H i : ℕ)
    (hw : i < (expandingWindows N I S H).length) :
    (expandingWindows N I S H).get ⟨i, hw⟩ =
      (List.range (I + i * S), (List.range H).map (fun j => I + i * S + j)) := by
  simp only [List.get_eq_getElem]
  simp [expandingWindows, windowStarts_eq]

/-- C5 witness: window 1 of the 9-point scenario with `I = S = H = 3` has
train range `[0, 6)` and test range `[6, 9)`. -/
theorem expandingWindows_window_witness :
    (expandingWindows 9 3 3 3).get ⟨1, by decide⟩ =
      (List.range (3 + 1 * 3), (List.range 3).map (fun j => 3 + 1 * 3 + j)) :=
  expandingWindows_window 9 3 3 3 1 (by decide)

/-! Subsampling splitter (`TestingSplitter` in `splitter.py`)

`TestingSplitter._split_windows` re-seeds the module-level random generator
(`random.seed(DEFAULT_SEED)` with `DEFAULT_SEED = 42`), then draws one
uniform value per underlying window (`rand = random.random()`) and yields
the window iff `rand <= self._frac`.  The generator is modelled as a state
`(seed, pos)` together with an abstract stream function
`draw : seed → pos → ℚ`; `random.random()` returns `draw seed pos` and
advances `pos`.  Python documents `random.random()` as returning a value
in `[0, 1)`; the Mersenne-Twister internals are outside this repository's
sources, so the stream function is kept abstract. -/

/-- State of Python's module-level `random` generator: which seed it was last
seeded with, and how many values have been drawn since. -/
structure PyRandomState where
  seed : ℕ
  pos : ℕ
deriving DecidableEq

/-- Model of `random.seed s`: resets the generator state; any previous state is
discarded. -/
def randomSeed (s : ℕ) (_st : PyRandomState) : PyRandomState := ⟨s, 0⟩

/-- Model of `random.random()`: returns the next value of the stream determined by the
current seed, advancing the position. -/
def randomRandom (draw : ℕ → ℕ → ℚ) (st : PyRandomState) : ℚ × PyRandomState :=
  (draw st.seed st.pos, ⟨st.seed, st.pos + 1⟩)

/-- The `for train, test in gen` loop body of
`TestingSplitter._split_windows`: one draw per underlying window, the window
is yielded iff the draw is `≤ frac`. -/
def splitWindowsGo {W : Type} (draw : ℕ → ℕ → ℚ) (frac : ℚ) :
    List W → PyRandomState → List W × PyRandomState
  | [], st => ([], st)
  | w :: ws, st =>
      let r := randomRandom draw st
      let rest := splitWindowsGo draw frac ws r.2
      (if r.1 ≤ frac then w :: rest.1 else rest.1, rest.2)

/-- Model of `TestingSplitter._split_windows`: seed the generator with the fixed
`DEFAULT_SEED = 42`, then filter the underlying window sequence `ws` by
per-window draws. -/
def testingSplitWindows {W : Type} (draw : ℕ → ℕ → ℚ) (frac : ℚ)
    (ws : List W) (st : PyRandomState) : List W × PyRandomState :=
  splitWindowsGo draw frac ws (randomSeed 42 st)

/-- C3: the subsampling splitter's retained subset is independent of the
incoming generator state — re-seeding with the fixed value 42 at the start
of every full iteration makes two full iterations over the same window
sequence (e.g. one per model evaluated) retain exactly the same windows, no
matter how many draws or iterations happened before. -/
theorem testingSplitWindows_deterministic {W : Type} (draw : ℕ → ℕ → ℚ)
    (frac : ℚ) (ws : List W) (st1 st2 : PyRandomState) :
    (testingSplitWindows draw frac ws st1).1 =
      (testingSplitWindows draw frac ws st2).1 := by
  simp [testingSplitWindows, randomSeed]

/-- C7 helper: with `frac = 1` every draw passes the `rand ≤ frac` test,
because `random.random()` yields values `< 1`. -/
theorem splitWindowsGo_frac_one {W : Type} (draw : ℕ → ℕ → ℚ)
    (h : ∀ s p, draw s p < 1) :
    ∀ (ws : List W) (st : PyRandomState), (splitWindowsGo draw 1 ws st).1 = ws := by
  intro ws
  induction ws with
  | nil => intro st; simp [splitWindowsGo]
  | cons w ws ih =>
      intro st
      have hle : draw st.seed st.pos ≤ 1 := le_of_lt (h st.seed st.pos)
      simp [splitWindowsGo, randomRandom, hle, ih]

/-- C7: a subsampling splitter with `frac = 1` emits exactly the same ordered
window sequence as the unwrapped expanding splitter with identical
parameters (every draw lies in `[0, 1)`, hence passes `rand ≤ 1`). -/
theorem testingSplitWindows_frac_one (draw : ℕ → ℕ → ℚ) (st : PyRandomState)
    (N I S H : ℕ) (h : ∀ s p, draw s p < 1) :
    (testingSplitWindows draw 1 (expandingWindows N I S H) st).1 =
      expandingWindows N I S H := by
  simp [testingSplitWindows, splitWindowsGo_frac_one draw h]

/-- C7 witness: a concrete in-range stream on the 9-point scenario. -/
theorem testingSplitWindows_frac_one_witness :
    (testingSplitWindows (fun _ _ => (1 : ℚ) / 2) 1 (expandingWindows 9 3 3 3) ⟨0, 0⟩).1 =
      expandingWindows 9 3 3 3 :=
  testingSplitWindows_frac_one (fun _ _ => (1 : ℚ) / 2) ⟨0, 0⟩ 9 3 3 3
    (fun _ _ => by norm_num)

/-- C6 counterexample: the code retains a window when `rand ≤ frac`, so with
`frac = 0` a draw of exactly `0` — permitted by `random.random()`'s
documented range `[0, 1)` — is retained: the claim that `frac = 0` emits
zero windows for every configuration fails on such a stream. -/
theorem testingSplitWindows_frac_zero_counterexample :
    (testingSplitWindows (fun _ _ => (0 : ℚ)) 0 (expandingWindows 9 3 3 3) ⟨0, 0⟩).1 ≠ [] := by
  decide

/-- C6 (amended): a subsampling splitter with `frac = 0` retains a window iff
its draw is exactly `0`; whenever every draw of the seed-42 stream is
strictly positive, a full iteration emits zero windows. -/
theorem testingSplitWindows_frac_zero {W : Type} (draw : ℕ → ℕ → ℚ)
    (ws : List W) (st : PyRandomState) (h : ∀ p, 0 < draw 42 p) :
    (testingSplitWindows draw 0 ws st).1 = [] := by
  suffices hgo : ∀ (ws : List W) (p : ℕ), (splitWindowsGo draw 0 ws ⟨42, p⟩).1 = [] by
    simp [testingSplitWindows, randomSeed, hgo]
  intro ws
  induction ws with
  | nil => intro p; simp [splitWindowsGo]
  | cons w ws ih =>
      intro p
      have hpos : ¬ draw 42 p ≤ 0 := not_le.mpr (h p)
      simp [splitWindowsGo, randomRandom, hpos, ih]

/-- C6 witness: a concrete strictly positive stream retains nothing at
`frac = 0`. -/
theorem testingSplitWindows_frac_zero_witness :
    (testingSplitWindows (fun _ _ => (1 : ℚ) / 2) 0 (expandingWindows 9 3 3 3) ⟨0, 0⟩).1 = [] :=
  testingSplitWindows_frac_zero (fun _ _ => (1 : ℚ) / 2) (expandingWindows 9 3 3 3) ⟨0, 0⟩
    (fun _ => by norm_num)

/-! Backtesting engine (`backtesting.py`)

`_evaluate` runs one model over the window sequence, concatenating
per-window predictions.  Its body is

```
results = pd.Series()
try:
    for train, test in splitter.split(y):
        ... fit ... predict ...
        results = pd.concat((results, pred))
except KeyboardInterrupt:
    raise
finally:
    return results
```

A `fit`/`predict` call on window `i` is modelled as a step function
`f : ℕ → StepResult α` returning either a prediction or a raised exception
(`KeyboardInterrupt`, the cooperative cancellation signal, or any other
error).  Python control flow is modelled explicitly: a pending exception is
carried alongside the accumulated results, and — per Python semantics — a
`return` inside a `finally` block discards any pending exception. -/

/-- Kind of exception raised by a `fit`/`predict` call. -/
inductive ExnKind where
  | keyboardInterrupt : ExnKind
  | otherError : ExnKind
deriving DecidableEq

/-- Outcome of one `fit`/`predict` cycle on one window. -/
inductive StepResult (α : Type) where
  | ok (pred : α) : StepResult α
  | exn (k : ExnKind) : StepResult α

/-- Outcome of a Python call: normal return or an exception propagating. -/
inductive ExcResult (α : Type) where
  | normal (val : α) : ExcResult α
  | raised (k : ExnKind) : ExcResult α
deriving DecidableEq

/-- The `for train, test in splitter.split(y)` loop of `_evaluate`, run from
window index `i` with `rem` windows remaining: accumulates predictions in
order and stops at the first raised exception, which becomes the pending
exception of the `try` block. -/
def evalLoopGo {α : Type} (f : ℕ → StepResult α) (i : ℕ) :
    ℕ → List α × Option ExnKind
  | 0 => ([], none)
  | rem + 1 =>
      match f i with
      | .ok p =>
          let rest := evalLoopGo f (i + 1) rem
          (p :: rest.1, rest.2)
      | .exn k => ([], some k)

/-- Python semantics of `except KeyboardInterrupt: raise`: the handler
matches only the interrupt and re-raises it unchanged; any other pending
exception passes through unchanged as well. -/
def exceptKIReraise (pending : Option ExnKind) : Option ExnKind :=
  match pending with
  | some ExnKind.keyboardInterrupt => some ExnKind.keyboardInterrupt
  | p => p

/-- Python semantics of `finally: return results`: the `return` executes
during unwinding and discards whatever exception was pending, so the call
always returns normally. -/
def finallyReturn {α : Type} (_pending : Option ExnKind) (results : α) : ExcResult α :=
  ExcResult.normal results

/-- Model of `_evaluate` (backtesting.py): run the window loop for one model over
`nw` windows; the `try / except KeyboardInterrupt: raise / finally: return
results` structure wraps the loop. -/
def pyEvaluate {α : Type} (f : ℕ → StepResult α) (nw : ℕ) : ExcResult (List α) :=
  let body := evalLoopGo f 0 nw
  finallyReturn (exceptKIReraise body.2) body.1

/-- The model loop of `TSBacktesting.evaluate`: for each model call
`_evaluate`; `except KeyboardInterrupt: break` stops evaluating further
models; any other exception escaping `_evaluate` propagates out of
`evaluate`. -/
def tsEvaluateGo {α : Type} (nw : ℕ) :
    List (String × (ℕ → StepResult α)) → ExcResult (List (String × List α))
  | [] => ExcResult.normal []
  | (name, f) :: rest =>
      match pyEvaluate f nw with
      | .raised ExnKind.keyboardInterrupt => ExcResult.normal []
      | .raised k => ExcResult.raised k
      | .normal r =>
          match tsEvaluateGo nw rest with
          | .normal rs => ExcResult.normal ((name, r) :: rs)
          | .raised k => ExcResult.raised k

/-- Model of `TSBacktesting.evaluate`: evaluate every model in declaration order over
the `nw`-window sequence, collecting each model's forecast column. -/
def tsEvaluate {α : Type} (models : List (String × (ℕ → StepResult α)))
    (nw : ℕ) : ExcResult (List (String × List α)) :=
  tsEvaluateGo nw models

theorem evalLoopGo_congr {α : Type} (f g : ℕ → StepResult α) :
    ∀ (rem i : ℕ), (∀ j, i ≤ j → j < i + rem → f j = g j) →
      evalLoopGo f i rem = evalLoopGo g i rem := by
  intro rem
  induction rem with
  | zero => intro i _; rfl
  | succ rem ih =>
      intro i h
      have hfi : f i = g i := h i (by omega) (by omega)
      have hrec := ih (i + 1) (fun j h1 h2 => h j (by omega) (by omega))
      simp only [evalLoopGo, hfi, hrec]

theorem evalLoopGo_all_ok {α : Type} (p : ℕ → α) :
    ∀ (rem i : ℕ),
      evalLoopGo (fun j => StepResult.ok (p j)) i rem = ((List.range' i rem).map p, none) := by
  intro rem
  induction rem with
  | zero => intro i; simp [evalLoopGo]
  | succ rem ih => intro i; simp [evalLoopGo, List.range'_succ, ih]

theorem evalLoopGo_interrupted {α : Type} (p : ℕ → α) (k : ℕ) :
    ∀ (rem i : ℕ), i ≤ k → k < i + rem →
      evalLoopGo (fun j => if j < k then StepResult.ok (p j)
        else StepResult.exn ExnKind.keyboardInterrupt) i rem
        = ((List.range' i (k - i)).map p, some ExnKind.keyboardInterrupt) := by
  intro rem
  induction rem with
  | zero => intro i h1 h2; omega
  | succ rem ih =>
      intro i h1 h2
      by_cases hik : i < k
      · have hrec := ih (i + 1) (by omega) (by omega)
        have hsub : k - i = (k - (i + 1)) + 1 := by omega
        simp only [evalLoopGo, if_pos hik, hrec, hsub, List.range'_succ, List.map_cons]
      · have hk : i = k := by omega
        have hnot : ¬ k < k := by omega
        subst hk
        simp only [evalLoopGo, if_neg hnot]
        have : i - i = 0 := by omega
        simp [this]

/-- C1: the claim says a non-cancellation failure raised by `fit`/`predict`
propagates out of `evaluate` and aborts it with no forecast table.  The code
does the opposite: `_evaluate`'s `finally: return results` discards the
in-flight exception, so `evaluate` returns normally with the partial column
— evaluated here at the failing input (one model erroring at window 1 of
the 2-window, 9-point scenario). -/
theorem evaluate_swallows_model_failure :
    tsEvaluate
      [("m", fun i => if i = 0 then StepResult.ok ([3, 4, 5] : List ℕ)
        else StepResult.exn ExnKind.otherError)]
      (expandingWindows 9 3 3 3).length
      = ExcResult.normal [("m", [[3, 4, 5]])] := by
  decide

theorem pyEvaluate_normal {α : Type} (p : ℕ → α) (nw : ℕ) :
    pyEvaluate (fun i => StepResult.ok (p i)) nw
      = ExcResult.normal ((List.range nw).map p) := by
  simp [pyEvaluate, evalLoopGo_all_ok, finallyReturn, List.range_eq_range']

theorem pyEvaluate_interrupted {α : Type} (p : ℕ → α) (nw k : ℕ) (hk : k ≤ nw) :
    pyEvaluate (fun i => if i < k then StepResult.ok (p i)
      else StepResult.exn ExnKind.keyboardInterrupt) nw
      = ExcResult.normal ((List.range k).map p) := by
  by_cases hlt : k < nw
  · have hbody := evalLoopGo_interrupted p k nw 0 (by omega) (by omega)
    simp only [pyEvaluate, hbody, exceptKIReraise, finallyReturn, Nat.sub_zero,
      List.range_eq_range']
  · have hkn : k = nw := by omega
    subst hkn
    have hcg : evalLoopGo (fun i => if i < k then StepResult.ok (p i)
        else StepResult.exn ExnKind.keyboardInterrupt) 0 k
        = evalLoopGo (fun i => StepResult.ok (p i)) 0 k := by
      apply evalLoopGo_congr
      intro j _ hj2
      have : j < k := by omega
      simp [this]
    simp only [pyEvaluate, hcg, evalLoopGo_all_ok, exceptKIReraise, finallyReturn,
      List.range_eq_range']

theorem tsEvaluateGo_all_ok_append {α : Type} (nw : ℕ)
    (ms : List (String × (ℕ → α))) (rest : List (String × (ℕ → StepResult α)))
    (rs : List (String × List α))
    (h : tsEvaluateGo nw rest = ExcResult.normal rs) :
    tsEvaluateGo nw
        ((ms.map (fun m => (m.1, fun i => StepResult.ok (m.2 i)))) ++ rest)
      = ExcResult.normal
          ((ms.map (fun m => (m.1, (List.range nw).map m.2))) ++ rs) := by
  induction ms with
  | nil => simpa using h
  | cons m ms ih =>
      simp only [List.map_cons, List.cons_append, tsEvaluateGo, pyEvaluate_normal,
        List.append_eq, ih]

/-- C2: in an `evaluate` call over any list of models, a cancellation signal
at window `k` of one model's loop stops only that model's window
consumption: the windows that model already predicted are kept as its
forecast column, models evaluated before it keep their completed columns,
and every model after it still completes all `nw` windows. -/
theorem evaluate_cancellation_local {α : Type}
    (before after : List (String × (ℕ → α))) (n1 : String) (p1 : ℕ → α)
    (nw k : ℕ) (hk : k ≤ nw) :
    tsEvaluate
      (before.map (fun m => (m.1, fun i => StepResult.ok (m.2 i)))
        ++ [(n1, fun i => if i < k then StepResult.ok (p1 i)
              else StepResult.exn ExnKind.keyboardInterrupt)]
        ++ after.map (fun m => (m.1, fun i => StepResult.ok (m.2 i)))) nw
      = ExcResult.normal
          (before.map (fun m => (m.1, (List.range nw).map m.2))
            ++ [(n1, (List.range k).map p1)]
            ++ after.map (fun m => (m.1, (List.range nw).map m.2))) := by
  have hafter := tsEvaluateGo_all_ok_append nw after [] [] rfl
  simp only [List.append_nil] at hafter
  have hmid : tsEvaluateGo nw
      ((n1, fun i => if i < k then StepResult.ok (p1 i)
          else StepResult.exn ExnKind.keyboardInterrupt)
        :: after.map (fun m => (m.1, fun i => StepResult.ok (m.2 i))))
      = ExcResult.normal ((n1, (List.range k).map p1)
          :: after.map (fun m => (m.1, (List.range nw).map m.2))) := by
    simp only [tsEvaluateGo, pyEvaluate_interrupted p1 nw k hk, hafter]
  have hall := tsEvaluateGo_all_ok_append nw before _ _ hmid
  simpa [tsEvaluate, List.append_assoc] using hall

/-! Non-windowed split helper (`split_series` in `splitter.py`)

A series is modelled as a list of (index, value) pairs.  `split_series`
optionally filters to `index >= train_start`, raises when neither
`train_end` nor `test_len` is given, and otherwise builds a boolean train
mask: label-based `index < train_end` when `train_end` is given, else a
positional mask marking the first `test_len` entries
(`train_mask[:test_len] = True`).  The test set is the complement, truncated
to `test_len` entries when `test_len` is given. -/

/-- Filter `y.loc[y.index >= train_start]` applied when `train_start` is given. -/
def applyTrainStart (ts : Option ℤ) (y : List (ℤ × ℚ)) : List (ℤ × ℚ) :=
  match ts with
  | some s => y.filter (fun p => decide (s ≤ p.1))
  | none => y

/-- Model of `split_series` (splitter.py). -/
def splitSeries (y : List (ℤ × ℚ)) (train_start train_end : Option ℤ)
    (test_len : Option ℕ) : Except String (List (ℤ × ℚ) × List (ℤ × ℚ)) :=
  let y := applyTrainStart train_start y
  match train_end, test_len with
  | none, none =>
      Except.error
        "One of the parameters: train_end or test_len must be specified to split series"
  | none, some k =>
      let train := (y.enum.filter (fun p => decide (p.1 < k))).map Prod.snd
      let test := (y.enum.filter (fun p => !decide (p.1 < k))).map Prod.snd
      Except.ok (train, test.take k)
  | some e, tl =>
      let train := y.filter (fun p => decide (p.1 < e))
      let test := y.filter (fun p => !decide (p.1 < e))
      Except.ok (train, match tl with | some k => test.take k | none => test)

/-- Validation in `TestingSplitter.__init__`: raises
`ValueError("frac must be between 0 and 1, ...")` iff `frac ∉ [0, 1]`,
otherwise stores the fraction. -/
def testingSplitterInit (frac : ℚ) : Except String ℚ :=
  if 0 ≤ frac ∧ frac ≤ 1 then Except.ok frac
  else Except.error "frac must be between 0 and 1"

/-- C8: configuration errors are raised at call time and exactly then: the
subsampling splitter's constructor errors iff `frac` lies outside `[0, 1]`,
and `split_series` errors iff both `train_end` and `test_len` are `none`. -/
theorem configuration_errors (frac : ℚ) (y : List (ℤ × ℚ))
    (ts te : Option ℤ) (tl : Option ℕ) :
    ((∃ msg, testingSplitterInit frac = Except.error msg) ↔
        ¬ (0 ≤ frac ∧ frac ≤ 1)) ∧
      ((∃ msg, splitSeries y ts te tl = Except.error msg) ↔
        te = none ∧ tl = none) := by
  constructor
  · by_cases h : 0 ≤ frac ∧ frac ≤ 1 <;> simp [testingSplitterInit, h]
  · match te, tl with
    | none, none => simp [splitSeries]
    | none, some k => simp [splitSeries]
    | some e, none => simp [splitSeries]
    | some e, some k => simp [splitSeries]

theorem enumFrom_filter_lt_map_snd {α : Type} (m : ℕ) :
    ∀ (l : List α) (n : ℕ),
      ((l.enumFrom n).filter (fun p => decide (p.1 < m))).map Prod.snd = l.take (m - n) := by
  intro l
  induction l with
  | nil => intro n; simp
  | cons x xs ih =>
      intro n
      by_cases h : n < m
      · have hsub : m - n = (m - (n + 1)) + 1 := by omega
        simp [List.enumFrom, List.filter_cons, h, ih, hsub]
      · have hs1 : m - n = 0 := by omega
        have hs2 : m - (n + 1) = 0 := by omega
        have hrec := ih (n + 1)
        rw [hs2] at hrec
        simp [List.enumFrom, List.filter_cons, h, hrec, hs1]

theorem enumFrom_filter_ge_map_snd {α : Type} (m : ℕ) :
    ∀ (l : List α) (n : ℕ),
      ((l.enumFrom n).filter (fun p => !decide (p.1 < m))).map Prod.snd = l.drop (m - n) := by
  intro l
  induction l with
  | nil => intro n; simp
  | cons x xs ih =>
      intro n
      by_cases h : n < m
      · have hsub : m - n = (m - (n + 1)) + 1 := by omega
        simp [List.enumFrom, List.filter_cons, h, ih, hsub]
      · have hs1 : m - n = 0 := by omega
        have hs2 : m - (n + 1) = 0 := by omega
        have hrec := ih (n + 1)
        rw [hs2] at hrec
        simp [List.enumFrom, List.filter_cons, h, hrec, hs1]

/-- C10: calling `split_series` with `train_end = None` and `test_len = k`
makes the positional mask `train_mask[:k] = True` select the first `k`
entries (after the optional `train_start` filter) as the train set; the test
set is the entries immediately following, truncated to at most `k` — the
parameter named `test_len` fixes the train length as well. -/
theorem splitSeries_testLen_fixes_train (y : List (ℤ × ℚ)) (ts : Option ℤ) (k : ℕ) :
    splitSeries y ts none (some k)
      = Except.ok ((applyTrainStart ts y).take k,
          ((applyTrainStart ts y).drop k).take k)
      ∧ (((applyTrainStart ts y).drop k).take k).length ≤ k := by
  constructor
  · have h1 := enumFrom_filter_lt_map_snd (α := ℤ × ℚ) k (applyTrainStart ts y) 0
    have h2 := enumFrom_filter_ge_map_snd (α := ℤ × ℚ) k (applyTrainStart ts y) 0
    simp only [Nat.sub_zero] at h1 h2
    simp only [splitSeries, List.enum]
    rw [h1, h2]
  · exact List.length_take_le k _

/-! Error table ordering (`TSBacktesting.errors_`)

`errors_` returns `self._errors.sort_values(by=self._errors.columns.to_list(),
ascending=True)`: the rows (one per model, one column per metric) sorted
ascending by the first metric column, ties broken by the next, and so on —
a lexicographic ascending sort over the row's metric values.  A table is
modelled as a list of (model name, metric values) rows. -/

/-- Lexicographic `≤` on metric-value rows: the first differing column
decides; a row that is a strict prefix compares as smaller. -/
def lexLe : List ℚ → List ℚ → Bool
  | [], _ => true
  | _ :: _, [] => false
  | a :: as, b :: bs => if a < b then true else if b < a then false else lexLe as bs

/-- Model of `errors_`: the table sorted by all metric columns, ascending. -/
def sortedErrors (t : List (String × List ℚ)) : List (String × List ℚ) :=
  t.mergeSort (fun r s => lexLe r.2 s.2)

theorem lexLe_total : ∀ a b : List ℚ, (lexLe a b || lexLe b a) = true := by
  intro a
  induction a with
  | nil => intro b; simp [lexLe]
  | cons x xs ih =>
      intro b
      match b with
      | [] => simp [lexLe]
      | y :: ys =>
          simp only [lexLe]
          by_cases hxy : x < y
          · simp [hxy]
          · by_cases hyx : y < x
            · simp [hxy, hyx]
            · simpa [hxy, hyx] using ih ys

theorem lexLe_trans :
    ∀ a b c : List ℚ, lexLe a b = true → lexLe b c = true → lexLe a c = true := by
  intro a
  induction a with
  | nil => intro b c _ _; simp [lexLe]
  | cons x xs ih =>
      intro b c h1 h2
      match b, c with
      | [], _ => simp [lexLe] at h1
      | _ :: _, [] => simp [lexLe] at h2
      | y :: ys, z :: zs =>
          simp only [lexLe] at h1 h2 ⊢
          by_cases hxy : x < y
          · by_cases hyz : y < z
            · simp [lt_trans hxy hyz]
            · by_cases hzy : z < y
              · simp [hyz, hzy] at h2
              · have heq : y = z := le_antisymm (not_lt.mp hzy) (not_lt.mp hyz)
                simp [heq ▸ hxy]
          · by_cases hyx : y < x
            · simp [hxy, hyx] at h1
            · have hxyeq : x = y := le_antisymm (not_lt.mp hyx) (not_lt.mp hxy)
              simp only [if_neg hxy, if_neg hyx] at h1
              by_cases hyz : y < z
              · have hxz : x < z := hxyeq ▸ hyz
                simp [hxz]
              · by_cases hzy : z < y
                · simp [hyz, hzy] at h2
                · have hyzeq : y = z := le_antisymm (not_lt.mp hzy) (not_lt.mp hyz)
                  simp only [if_neg hyz, if_neg hzy] at h2
                  have hxz : ¬ x < z := hyzeq ▸ hxyeq ▸ lt_irrefl x
                  have hzx : ¬ z < x := hyzeq ▸ hxyeq ▸ lt_irrefl x
                  simp [hxz, hzx, ih ys zs h1 h2]

/-- C9: the error table exposed by the engine is a permutation of the
computed per-model metric rows, sorted ascending lexicographically across
the metric columns — best-performing models first. -/
theorem errors_table_sorted (t : List (String × List ℚ)) :
    (sortedErrors t).Pairwise (fun r s => lexLe r.2 s.2 = true) ∧
      (sortedErrors t).Perm t := by
  constructor
  · exact List.sorted_mergeSort
      (fun a b c hab hbc => lexLe_trans a.2 b.2 c.2 hab hbc)
      (fun a b => lexLe_total a.2 b.2) t
  · exact List.mergeSort_perm t _

/-- C2 witness: the 2-window, 9-point scenario with two models; the first is
cancelled after window 1 and keeps exactly window 1's test-range forecast,
the second completes both windows. -/
theorem evaluate_cancellation_local_witness :
    tsEvaluate
      [("m1", fun i => if i < 1
          then StepResult.ok ((List.range 3).map (fun t => 3 + 3 * i + t))
          else StepResult.exn ExnKind.keyboardInterrupt),
        ("m2", fun i => StepResult.ok ((List.range 3).map (fun t => 3 + 3 * i + t)))] 2
      = ExcResult.normal
          [("m1", (List.range 1).map (fun i => (List.range 3).map (fun t => 3 + 3 * i + t))),
            ("m2", (List.range 2).map (fun i => (List.range 3).map (fun t => 3 + 3 * i + t)))] :=
  evaluate_cancellation_local []
    [("m2", fun i => (List.range 3).map (fun t => 3 + 3 * i + t))] "m1"
    (fun i => (List.range 3).map (fun t => 3 + 3 * i + t)) 2 1 (by omega)

end EPF
